import Mathlib

/-!
Verification development for the HKAddressParser pipeline.

The functions below are shallow embeddings of the Python sources:
`components/util.py` (the address similarity scorer and its matching
primitives), `components/connection.py` (the rate-limited session
constructor) and `address_fetcher.py` (the retrying fetch orchestrator and
the batch pipeline).  Python strings are modelled as `List Char`, Python
floats as `ℚ`, and code paths that raise an exception are modelled as
`Option`/`Except` failures.
-/

namespace HKAddr

/-- Python `str.find` scan: returns the first index at which `needle` occurs
as a contiguous substring of the remaining haystack, counting from `i`. -/
def strFindAux (needle : List Char) : List Char → Nat → Int
  | hay, i =>
    if needle.isPrefixOf hay then (i : Int)
    else
      match hay with
      | [] => -1
      | _ :: t => strFindAux needle t (i + 1)

/-- Python `hay.find(needle)`: index of the first occurrence, `-1` when absent. -/
def strFind (hay needle : List Char) : Int :=
  strFindAux needle hay 0

/-- Python string `<`: lexicographic comparison by code point, a proper
prefix being smaller. -/
def pyStrLt : List Char → List Char → Bool
  | [], [] => false
  | [], _ :: _ => true
  | _ :: _, [] => false
  | a :: s, b :: t => if a < b then true else if b < a then false else pyStrLt s t

/-- One step of Python `str.split()` (no separator argument): accumulate the
current word, closing it at whitespace; empty words are never emitted. -/
def pySplitWSStep (acc : List (List Char) × List Char) (c : Char) :
    List (List Char) × List Char :=
  if c.isWhitespace then
    if acc.2.isEmpty then acc else (acc.1 ++ [acc.2], [])
  else (acc.1, acc.2 ++ [c])

/-- Python `s.split()`: split on runs of whitespace, dropping empty pieces. -/
def pySplitWS (s : List Char) : List (List Char) :=
  let r := s.foldl pySplitWSStep ([], [])
  if r.2.isEmpty then r.1 else r.1 ++ [r.2]

/-- Python `s.split()[-1]`; `none` models the `IndexError` raised when the
string contains no word at all. -/
def lastWord (s : List Char) : Option (List Char) :=
  (pySplitWS s).getLast?

/-- The tuple `(fieldName, fieldVal, matchSpan, goodness)` produced by the
matchers in `util.py`. -/
structure FieldMatch where
  fieldName : String
  fieldVal : List Char
  matchSpan : Option (Nat × Nat)
  goodness : Option ℚ
  deriving Repr, DecidableEq

/-- The head-stripping loop of `matchStr` (util.py lines 10-19): at index `i`
try to find `inStr[i:]` inside `inAddr`; on success record the span and the
goodness `(len(inStr[i:])/len(inStr) - 0.5) * 2`; otherwise give up when the
remaining suffix is at most 3 characters long or when `i` has reached
`len(inStr) // 2`, else strip one more leading character.  The fuel argument
is `len(inStr) - i` at every call, so the recursion mirrors
`for i in range(0, len(inStr))`. -/
def matchStrGo (inAddr inStr : List Char) : Nat → Nat → Option (Nat × Nat) × Option ℚ
  | 0, _ => (none, none)
  | fuel + 1, i =>
    let newInStr := inStr.drop i
    let matchedPosStart := strFind inAddr newInStr
    if 0 ≤ matchedPosStart then
      (some (matchedPosStart.toNat, matchedPosStart.toNat + newInStr.length),
       some (((newInStr.length : ℚ) / (inStr.length : ℚ) - 1/2) * 2))
    else if inStr.length - i ≤ 3 then (none, none)
    else if inStr.length / 2 ≤ i then (none, none)
    else matchStrGo inAddr inStr fuel (i + 1)

/-- `matchStr` produces exactly one tuple; this is that tuple. -/
def matchStrOne (inAddr : List Char) (fieldName : String) (inStr : List Char) :
    FieldMatch :=
  let r := matchStrGo inAddr inStr inStr.length 0
  ⟨fieldName, inStr, r.1, r.2⟩

/-- `matchStr` from util.py: the single-element list `[(fieldName, inStr,
matchedPos, goodness)]`. -/
def matchStr (inAddr : List Char) (fieldName : String) (inStr : List Char) :
    List FieldMatch :=
  [matchStrOne inAddr fieldName inStr]

/-- The number of leading characters that must be stripped from `inStr`
before the remaining suffix first occurs inside `inAddr`, ignoring the
give-up conditions of `matchStr`'s loop: the least `i < len(inStr)` whose
suffix `inStr[i:]` is found by `inAddr.find`.  Indices at or beyond
`len(inStr)` all denote the empty suffix, so the bounded search is complete
for non-empty suffixes. -/
def firstFoundStrip (inAddr inStr : List Char) : Option Nat :=
  (List.range inStr.length).find? fun i =>
    decide (0 ≤ strFind inAddr (inStr.drop i))

/-- Whether some suffix of `inStr` strictly longer than `n` characters occurs
inside `inAddr` (every suffix of `inStr` is `inStr.drop i` for some
`i ≤ len(inStr)`). -/
def sharesSuffixLongerThan (n : Nat) (inAddr inStr : List Char) : Bool :=
  (List.range (inStr.length + 1)).any fun i =>
    decide (n < (inStr.drop i).length) && decide (0 ≤ strFind inAddr (inStr.drop i))

/-- Membership in the regex character class `[0-9A-z]`: the digits plus the
ASCII range from `A` to `z` (which also contains the punctuation characters
between `Z` and `a`, exactly as the Python pattern does). -/
def isBNoChar (c : Char) : Bool :=
  ('0' ≤ c && c ≤ '9') || ('A' ≤ c && c ≤ 'z')

/-- Membership in the regex character class `[至及\-]`. -/
def isRangeSep (c : Char) : Bool :=
  c == '至' || c == '及' || c == '-'

/-- Model of `re.match(r'([0-9A-z]+)[至及\-]*([0-9A-z]*)號', s)`.  Because the
three character classes are pairwise disjoint and the final literal `號`
belongs to none of them, the greedy backtracking search is equivalent to
taking maximal runs: a non-empty run of `[0-9A-z]` (group 1), a run of
`[至及\-]`, a run of `[0-9A-z]` (group 2), then the literal `號`.  Returns
`(end of the whole match, (group 1, group 2))`. -/
def bldgNoMatch (s : List Char) : Option (Nat × (List Char × List Char)) :=
  let g1 := s.takeWhile isBNoChar
  if g1.isEmpty then none
  else
    let s1 := s.dropWhile isBNoChar
    let sep := s1.takeWhile isRangeSep
    let s2 := s1.dropWhile isRangeSep
    let g2 := s2.takeWhile isBNoChar
    let s3 := s2.dropWhile isBNoChar
    match s3 with
    | c :: _ =>
      if c == '號' then some (g1.length + sep.length + g2.length + 1, (g1, g2))
      else none
    | [] => none

mutual
/-- A value inside an OGCIO `ChiPremisesAddress` JSON object: a string, a
nested object, or some other JSON value (number, list, ...). -/
inductive OgcioVal where
  | vstr : List Char → OgcioVal
  | vdict : OgcioDict → OgcioVal
  | vother : OgcioVal
  deriving Repr, DecidableEq

/-- A JSON object, as an insertion-ordered association list (Python dicts
iterate in insertion order and hold unique keys). -/
inductive OgcioDict where
  | dnil : OgcioDict
  | dcons : String → OgcioVal → OgcioDict → OgcioDict
  deriving Repr, DecidableEq
end

/-- Key lookup in a JSON object (`key in d` / `d[key]` / `d.get(key)`). -/
def dictLookup : OgcioDict → String → Option OgcioVal
  | .dnil, _ => none
  | .dcons k v rest, key => if k = key then some v else dictLookup rest key

/-- Models `inDict.get(key, '')` at a position where the value is used as a
string: a missing key yields `''`; a present non-string value is modelled as
an error (Python raises a `TypeError` at the string operations that follow). -/
def getStrDefault : Option OgcioVal → Option (List Char)
  | none => some []
  | some (.vstr s) => some s
  | some _ => none

/-- The part of `matchChiStreetOrVillage` that runs after the street/village
key and its string value have been selected (util.py lines 40-79): match the
value's last word against the address, then handle the optional
building-number range. -/
def matchChiStreetTail (inAddr : List Char) (inDict : OgcioDict) (key : String)
    (rawName : List Char) : Option (List FieldMatch) :=
  match lastWord rawName with
  | none => none
  | some inStr =>
    let streetMatch := matchStrOne inAddr key inStr
    match getStrDefault (dictLookup inDict "BuildingNoFrom") with
    | none => none
    | some ogcioBNoFrom =>
      if ogcioBNoFrom.isEmpty then some [streetMatch]
      else
        match getStrDefault (dictLookup inDict "BuildingNoTo") with
        | none => none
        | some ogcioBNoTo0 =>
          let parsed : Option ((Nat × Nat) × (List Char × List Char)) :=
            match streetMatch.matchSpan with
            | some mp =>
              match bldgNoMatch (inAddr.drop mp.2) with
              | some (stop, gs) => some ((mp.2, mp.2 + stop), gs)
              | none => none
            | none => none
          let inAddrBNoFrom : List Char := (parsed.map fun p => p.2.1).getD []
          let inAddrBNoTo0 : List Char := (parsed.map fun p => p.2.2).getD []
          let ogcioBNoTo := if ogcioBNoTo0.isEmpty then ogcioBNoFrom else ogcioBNoTo0
          let inAddrBNoTo := if inAddrBNoTo0.isEmpty then inAddrBNoFrom else inAddrBNoTo0
          let inAddrBNoSpan : Option (Nat × Nat) :=
            if pyStrLt ogcioBNoTo inAddrBNoFrom || pyStrLt inAddrBNoTo ogcioBNoFrom then
              none
            else parsed.map fun p => p.1
          let fromMatches : List FieldMatch :=
            if (dictLookup inDict "BuildingNoFrom").isSome then
              [⟨"BuildingNoFrom", ogcioBNoFrom, inAddrBNoSpan,
                some (if inAddrBNoFrom = ogcioBNoFrom then 1 else 1/2)⟩]
            else []
          let toMatches : List FieldMatch :=
            if (dictLookup inDict "BuildingNoTo").isSome then
              [⟨"BuildingNoTo", ogcioBNoTo, inAddrBNoSpan,
                some (if inAddrBNoTo = ogcioBNoTo then 1 else 1/2)⟩]
            else []
          some (streetMatch :: (fromMatches ++ toMatches))

/-- `matchChiStreetOrVillage` from util.py.  `none` models the exceptions
Python raises on malformed input (no `StreetName`/`VillageName` key, a
non-string name value, a name with no word, or a non-string building
number).  When both name keys are present, `VillageName` wins, because the
source assigns `key = 'VillageName'` after `key = 'StreetName'`; the key's
value is then used as a string, so a non-string value raises. -/
def matchChiStreetOrVillage (inAddr : List Char) (inDict : OgcioDict) :
    Option (List FieldMatch) :=
  match dictLookup inDict "VillageName" with
  | some (.vstr v) => matchChiStreetTail inAddr inDict "VillageName" v
  | some _ => none
  | none =>
    match dictLookup inDict "StreetName" with
    | some (.vstr v) => matchChiStreetTail inAddr inDict "StreetName" v
    | some _ => none
    | none => none

mutual
/-- The body of one iteration of `matchDict`'s loop over `(k, v)` items:
`ChiStreet`/`ChiVillage` go to `matchChiStreetOrVillage` (a non-dict value
there makes the Python helper raise, modelled by `none`); other dict values
recurse; string values go to `matchStr`; any other value is ignored. -/
def matchItem (inAddr : List Char) (k : String) (v : OgcioVal) :
    Option (List FieldMatch) :=
  if k = "ChiStreet" || k = "ChiVillage" then
    match v with
    | .vdict sub => matchChiStreetOrVillage inAddr sub
    | _ => none
  else
    match v with
    | .vdict sub => matchDict inAddr sub
    | .vstr s => some (matchStr inAddr k s)
    | .vother => some []

/-- `matchDict` from util.py: concatenate the matches of every item in
insertion order; an exception anywhere aborts the whole traversal. -/
def matchDict (inAddr : List Char) : OgcioDict → Option (List FieldMatch)
  | .dnil => some []
  | .dcons k v rest =>
    match matchItem inAddr k v, matchDict inAddr rest with
    | some ms, some rest' => some (ms ++ rest')
    | _, _ => none
end

/-- The literal `scoreDict` of `getSimilarityWithOgcio`, read through
`scoreDict.get(fieldName, 0)`. -/
def scoreDict (fieldName : String) : ℚ :=
  if fieldName = "Region" then 10
  else if fieldName = "StreetName" then 20
  else if fieldName = "VillageName" then 20
  else if fieldName = "EstateName" then 20
  else if fieldName = "BuildingNoFrom" then 30
  else if fieldName = "BuildingNoTo" then 30
  else if fieldName = "BuildingName" then 40
  else 0

/-- `mask[i] = True`; `none` models the `IndexError` Python would raise on an
out-of-range index. -/
def setMaskTrue (mask : List Bool) (i : Nat) : Option (List Bool) :=
  if i < mask.length then some (mask.set i true) else none

/-- `for i in range(a, b): mask[i] = True`. -/
def setTrueRange (mask : List Bool) (a b : Nat) : Option (List Bool) :=
  (List.range' a (b - a)).foldlM setMaskTrue mask

/-- The score contribution of one `FieldMatch` in the aggregation loop of
`getSimilarityWithOgcio`: an absent span contributes `-1` regardless of the
field; a present span contributes `scoreDict[fieldName] * goodness` (the
matchers always pair a present span with a present goodness, so the
`getD 0` default is never exercised on the loop's actual input). -/
def matchContribution (fm : FieldMatch) : ℚ :=
  match fm.matchSpan with
  | none => -1
  | some _ => scoreDict fm.fieldName * fm.goodness.getD 0

/-- One iteration of the aggregation loop of `getSimilarityWithOgcio`: an
absent span costs 1 point; a present span adds `scoreDict[fieldName] *
goodness` and marks the span in the coverage mask.  A present span paired
with an absent goodness would make Python multiply by `None`, modelled as an
error. -/
def applyMatch (st : ℚ × List Bool) (fm : FieldMatch) : Option (ℚ × List Bool) :=
  match fm.matchSpan with
  | none => some (st.1 - 1, st.2)
  | some sp =>
    match fm.goodness with
    | none => none
    | some g =>
      (setTrueRange st.2 sp.1 sp.2).map fun mask2 =>
        (st.1 + scoreDict fm.fieldName * g, mask2)

/-- The `Similarity` record of util.py, fully constructed (score, query,
coverage mask, match list). -/
structure Similarity where
  score : ℚ
  inAddr : List Char
  inAddrHasMatch : List Bool
  ogcioMatches : List FieldMatch
  deriving Repr, DecidableEq

/-- `getSimilarityWithOGCIO` from util.py (renamed `getSimilarityWithOgcio`
here): run `matchDict`, then fold the
aggregation loop over the matches starting from score 0 and an all-`False`
mask of the query's length. -/
def getSimilarityWithOgcio (inAddr : List Char) (ogcioResult : OgcioDict) :
    Option Similarity := do
  let ms ← matchDict inAddr ogcioResult
  let st ← ms.foldlM applyMatch (0, List.replicate inAddr.length false)
  pure ⟨st.1, inAddr, st.2, ms⟩

/-- One flattened OGCIO suggestion, as produced by `flattenOGCIO`: its
original position `rank` and its `ChiPremisesAddress` payload `chi` (the
English/geospatial/score payloads are opaque to `ParseAddress`). -/
structure Candidate where
  rank : Nat
  chi : OgcioDict
  deriving Repr, DecidableEq

/-- The scoring loop of `ParseAddress`: attach a `Similarity` to every
candidate; an exception while scoring any candidate aborts the whole call. -/
def scoreCandidates (inAddr : List Char) (result : List Candidate) :
    Option (List (Candidate × Similarity)) :=
  result.mapM fun c => (getSimilarityWithOgcio inAddr c.chi).map fun s => (c, s)

/-- Stable descending insertion: the new element `x` (earlier in the original
list than everything already inserted after it) goes before the first element
whose score does not exceed it. -/
def insertByScoreDesc (x : Candidate × Similarity) :
    List (Candidate × Similarity) → List (Candidate × Similarity)
  | [] => [x]
  | y :: ys =>
    if y.2.score ≤ x.2.score then x :: y :: ys else y :: insertByScoreDesc x ys

/-- Model of `result.sort(key=lambda x: x['match'].score, reverse=True)`:
Python's sort is stable, so equal scores keep their original relative order;
any stable descending sort computes the same list. -/
def sortByScoreDesc : List (Candidate × Similarity) → List (Candidate × Similarity)
  | [] => []
  | x :: xs => insertByScoreDesc x (sortByScoreDesc xs)

/-- `ParseAddress` from util.py: score every candidate, sort by score
descending (stably), return the first element.  The surrounding
`try/except` turns any exception — including the `IndexError` of `result[0]`
on an empty list — into a `None` return, modelled by `none`. -/
def ParseAddress (result : List Candidate) (inputAddress : List Char) :
    Option (Candidate × Similarity) :=
  match scoreCandidates inputAddress result with
  | none => none
  | some scored => (sortByScoreDesc scored).head?

/-- The backoff computed by `get_data` in address_fetcher.py when an attempt
fails while the retry counter holds `retries`:
`await asyncio.sleep(1 if retries == 0 else sleep_multiplier * retries)`. -/
def backoffSleep (sleepMultiplier : ℚ) (retries : Nat) : ℚ :=
  if retries = 0 then 1 else sleepMultiplier * retries

/-- The retry loop of `get_data` (address_fetcher.py lines 139-157), with the
network abstracted into `attemptFails r` — whether the attempt made when the
retry counter holds `r` fails.  Runs while no response has been obtained and
`retries < maxRetries`; each failure performs one backoff sleep and
increments the counter.  Returns the list of sleeps performed in order, the
final counter, and whether a response was obtained.  The fuel argument is
`maxRetries - retries` at every call, so it never runs out before the loop
condition stops the recursion. -/
def getDataLoop (attemptFails : Nat → Bool) (maxRetries : Nat)
    (sleepMultiplier : ℚ) : Nat → Nat → List ℚ × (Nat × Bool)
  | fuel, retries =>
    if retries < maxRetries then
      match fuel with
      | 0 => ([], (retries, false))
      | fuel' + 1 =>
        if attemptFails retries then
          let rest := getDataLoop attemptFails maxRetries sleepMultiplier fuel' (retries + 1)
          (backoffSleep sleepMultiplier retries :: rest.1, rest.2)
        else ([], (retries, true))
    else ([], (retries, false))

/-- Run `get_data`'s retry loop from a fresh counter.  The source defaults
are `max_retries = 10` and `sleep_multiplier = 2`. -/
def getDataRun (attemptFails : Nat → Bool) (maxRetries : Nat)
    (sleepMultiplier : ℚ) : List ℚ × (Nat × Bool) :=
  getDataLoop attemptFails maxRetries sleepMultiplier maxRetries 0

/-- The sequence of backoff sleeps performed by one `get_data` call. -/
def getDataSleeps (attemptFails : Nat → Bool) (maxRetries : Nat)
    (sleepMultiplier : ℚ) : List ℚ :=
  (getDataRun attemptFails maxRetries sleepMultiplier).1

/-- Python `int(x)` on a float/rational: truncation toward zero. -/
def pyIntTrunc (r : ℚ) : Int :=
  Int.tdiv r.num (r.den : Int)

/-- The state `ThrottledClientSession.__init__` (connection.py) establishes
when it returns normally: the stored rate limit and, when one was given, the
capacity `min(2, int(rate_limit) + 1)` of the token queue. -/
structure ThrottledClientSession where
  rate_limit : Option ℚ
  queueMaxsize : Option Int
  deriving Repr, DecidableEq

/-- `ThrottledClientSession.__init__`: with no rate limit, construct without
a queue; with `rate_limit ≤ 0`, raise `ValueError('rate_limit must be
positive')` before creating the queue or the filler task; otherwise create
the queue with capacity `min(2, int(rate_limit) + 1)`. -/
def throttledClientSessionInit (rateLimit : Option ℚ) :
    Except String ThrottledClientSession :=
  match rateLimit with
  | none => .ok ⟨none, none⟩
  | some r =>
    if r ≤ 0 then .error "rate_limit must be positive"
    else .ok ⟨some r, some (min 2 (pyIntTrunc r + 1))⟩

/-- Model of `asyncio.gather` on already-created tasks: each task `i` holds a
fixed eventual result `tasks[i]` (the per-address resolutions share no
mutable state), the scheduler completes them in some arbitrary order, and
each completion stores its result in the slot of its own task index.
Returns the slot array. -/
def gatherModel {α : Type} (tasks : List α) (completionOrder : List Nat) :
    List (Option α) :=
  completionOrder.foldl (fun acc i => acc.set i tasks[i]?)
    (List.replicate tasks.length none)

/-- The batch pipeline of address_fetcher.py for string addresses: build one
`get_data` task per address in input order (`get_data_from_addresses`),
gather them, then drop the `None` results
(`filter(lambda item: item is not None, process_addresses)` in `__main__`).
`resolve` abstracts one whole per-address resolution (fetch, retries,
parse), which depends only on the address. -/
def batchOutput {α : Type} (resolve : List Char → Option α)
    (addresses : List (List Char)) (completionOrder : List Nat) : List α :=
  let tasks := addresses.map resolve
  let processAddresses := (gatherModel tasks completionOrder).map fun slot => slot.getD none
  processAddresses.filterMap id

/-! ### Facts about the string-search primitive -/

theorem strFindAux_found (needle : List Char) :
    ∀ (hay : List Char) (i : Nat), 0 ≤ strFindAux needle hay i →
      ∃ k : Nat, strFindAux needle hay i = ((i + k : Nat) : Int) ∧
        needle <+: hay.drop k ∧ k ≤ hay.length
  | hay, i => by
    intro h
    unfold strFindAux at h ⊢
    by_cases hp : needle.isPrefixOf hay
    · refine ⟨0, ?_, ?_, Nat.zero_le _⟩
      · simp [hp]
      · simpa using List.isPrefixOf_iff_prefix.mp hp
    · match hhay : hay with
      | [] => simp [hp] at h
      | c :: t =>
        simp only [hp, if_false] at h ⊢
        obtain ⟨k, hval, hpre, hk⟩ := strFindAux_found needle t (i + 1) h
        exact ⟨k + 1, by rw [hval]; norm_num; omega, by simpa using hpre,
               by simpa using Nat.succ_le_succ hk⟩

/-- When `hay.find(needle)` succeeds, the needle really occurs at the
returned index, which therefore fits inside the haystack. -/
theorem strFind_found (hay needle : List Char) (h : 0 ≤ strFind hay needle) :
    (hay.drop (strFind hay needle).toNat).take needle.length = needle ∧
    (strFind hay needle).toNat + needle.length ≤ hay.length := by
  obtain ⟨k, hval, hpre, hk⟩ := strFindAux_found needle hay 0 h
  have htn : (strFind hay needle).toNat = k := by
    unfold strFind; rw [hval]; simp
  rw [htn]
  constructor
  · exact ((List.prefix_iff_eq_take.mp hpre).symm)
  · have := hpre.length_le
    rw [List.length_drop] at this
    omega

/-! ### The head-stripping loop of matchStr -/

theorem matchStrGo_found (inAddr inStr : List Char) (fuel i : Nat)
    (h : 0 ≤ strFind inAddr (inStr.drop i)) :
    matchStrGo inAddr inStr (fuel + 1) i =
      (some ((strFind inAddr (inStr.drop i)).toNat,
             (strFind inAddr (inStr.drop i)).toNat + (inStr.drop i).length),
       some ((((inStr.drop i).length : ℚ) / (inStr.length : ℚ) - 1/2) * 2)) := by
  simp [matchStrGo, h]

theorem matchStrGo_step (inAddr inStr : List Char) (fuel i : Nat)
    (hfind : strFind inAddr (inStr.drop i) < 0)
    (hlen : 3 < inStr.length - i) (hhalf : i < inStr.length / 2) :
    matchStrGo inAddr inStr (fuel + 1) i = matchStrGo inAddr inStr fuel (i + 1) := by
  simp [matchStrGo, not_le.mpr hfind, not_le.mpr hlen, not_le.mpr hhalf]

/-- While every earlier stripping step failed to match and triggered neither
give-up condition, the loop state advances to step `i`. -/
theorem matchStrGo_from (inAddr inStr : List Char) (i : Nat)
    (hprev : ∀ j, j < i → strFind inAddr (inStr.drop j) < 0 ∧
             3 < inStr.length - j ∧ j < inStr.length / 2) :
    matchStrGo inAddr inStr inStr.length 0 =
      matchStrGo inAddr inStr (inStr.length - i) i := by
  induction i with
  | zero => rfl
  | succ n ih =>
    have hn := hprev n (Nat.lt_succ_self n)
    have hrw : inStr.length - n = (inStr.length - (n + 1)) + 1 := by omega
    rw [ih fun j hj => hprev j (Nat.lt_succ_of_lt hj), hrw,
        matchStrGo_step inAddr inStr _ n hn.1 hn.2.1 hn.2.2]

theorem matchStrGo_absent (inAddr inStr : List Char)
    (h3 : ∀ j, 3 ≤ inStr.length - j → strFind inAddr (inStr.drop j) < 0)
    (h0 : strFind inAddr inStr < 0) :
    ∀ (fuel i : Nat), (i = 0 ∨ 3 ≤ inStr.length - i) →
      matchStrGo inAddr inStr fuel i = (none, none) := by
  intro fuel
  induction fuel with
  | zero => intro i _; rfl
  | succ fuel ih =>
    intro i hi
    have hfind : strFind inAddr (inStr.drop i) < 0 := by
      rcases hi with hi | hi
      · subst hi; simpa using h0
      · exact h3 i hi
    by_cases hstop : inStr.length - i ≤ 3
    · simp [matchStrGo, not_le.mpr hfind, hstop]
    · by_cases hhalf : inStr.length / 2 ≤ i
      · simp [matchStrGo, not_le.mpr hfind, hstop, hhalf]
      · rw [matchStrGo_step inAddr inStr fuel i hfind (by omega) (by omega)]
        exact ih (i + 1) (Or.inr (by omega))

/-- C3 (amended): if stripping `i` leading characters is the first step at
which the remaining suffix occurs in the address, and the loop actually
reaches that step (every earlier failed step left more than 3 characters and
had stripped fewer than half), then `matchStr` returns the span of that
occurrence — whose length is the suffix length `L = N - i` — and goodness
`(L/N - 0.5) * 2`. -/
theorem matchStr_success (inAddr inStr : List Char) (fieldName : String) (i : Nat)
    (hprev : ∀ j, j < i → strFind inAddr (inStr.drop j) < 0 ∧
             3 < inStr.length - j ∧ j < inStr.length / 2)
    (hi : i < inStr.length)
    (hfound : 0 ≤ strFind inAddr (inStr.drop i)) :
    matchStrOne inAddr fieldName inStr =
      ⟨fieldName, inStr,
       some ((strFind inAddr (inStr.drop i)).toNat,
             (strFind inAddr (inStr.drop i)).toNat + (inStr.length - i)),
       some ((((inStr.length - i : Nat) : ℚ) / (inStr.length : ℚ) - 1/2) * 2)⟩ ∧
    (inAddr.drop (strFind inAddr (inStr.drop i)).toNat).take (inStr.length - i) =
      inStr.drop i ∧
    (strFind inAddr (inStr.drop i)).toNat + (inStr.length - i) ≤ inAddr.length := by
  have hdrop : (inStr.drop i).length = inStr.length - i := List.length_drop i inStr
  refine ⟨?_, ?_, ?_⟩
  · simp only [matchStrOne]
    rw [matchStrGo_from inAddr inStr i hprev]
    have hrw : inStr.length - i = (inStr.length - i - 1) + 1 := by omega
    conv_lhs => rw [hrw]
    rw [matchStrGo_found inAddr inStr _ i hfound]
    simp [hdrop]
  · have h := (strFind_found inAddr (inStr.drop i) hfound).1
    rw [← hdrop]; exact h
  · have h := (strFind_found inAddr (inStr.drop i) hfound).2
    rw [← hdrop]; exact h

/-- C3 counterexample: for the address `"ghij"` and the value
`"abcdefghij"`, the first suffix occurring in the address is reached after
stripping 6 characters (suffix `"ghij"`, length 4), yet `matchStr` returns
an absent span, because the loop gives up after step 4 (half of 10 is
stripped before step 6 is reached). -/
theorem matchStr_firstFound_counterexample :
    firstFoundStrip "ghij".toList "abcdefghij".toList = some 6 ∧
    "abcdefghij".toList.length - 6 = 4 ∧
    (matchStrOne "ghij".toList "StreetName" "abcdefghij".toList).matchSpan = none ∧
    (matchStrOne "ghij".toList "StreetName" "abcdefghij".toList).goodness = none := by
  refine ⟨by decide, by decide, by decide, by decide⟩

theorem matchStr_success_witness :
    matchStrOne "兆康站".toList "StreetName" "港鐵兆康站".toList =
      ⟨"StreetName", "港鐵兆康站".toList, some (0, 3), some (1/5)⟩ ∧
    (0:ℚ) < 1/5 ∧ (1/5:ℚ) < 1 := by
  have h := matchStr_success "兆康站".toList "港鐵兆康站".toList "StreetName" 2
    (by decide) (by decide) (by decide)
  refine ⟨?_, by norm_num, by norm_num⟩
  rw [h.1]
  norm_num
  all_goals decide

/-- C4 (amended): `matchStr` returns an absent span and goodness whenever
the value itself does not occur in the address and no suffix of the value of
length at least 3 occurs in the address (the loop only ever attempts the
full value and suffixes of length at least 3, because it gives up once the
remaining suffix would be at most 3 characters or half the value has been
stripped). -/
theorem matchStr_absent (inAddr inStr : List Char) (fieldName : String)
    (h3 : ∀ j, 3 ≤ inStr.length - j → strFind inAddr (inStr.drop j) < 0)
    (h0 : strFind inAddr inStr < 0) :
    matchStrOne inAddr fieldName inStr = ⟨fieldName, inStr, none, none⟩ := by
  unfold matchStrOne
  rw [matchStrGo_absent inAddr inStr h3 h0 inStr.length 0 (Or.inl rfl)]

/-- C4 counterexample: the value `"wxyz"` shares no suffix longer than 3
characters with any substring of the address `"xyz"`, yet `matchStr` returns
a present span (the loop matches the length-3 suffix `"xyz"` after stripping
one character). -/
theorem matchStr_shortSuffix_counterexample :
    sharesSuffixLongerThan 3 "xyz".toList "wxyz".toList = false ∧
    (matchStrOne "xyz".toList "StreetName" "wxyz".toList).matchSpan = some (0, 3) := by
  refine ⟨by decide, by decide⟩

theorem matchStr_absent_witness :
    matchStrOne "xy".toList "StreetName" "abcd".toList =
      ⟨"StreetName", "abcd".toList, none, none⟩ := by
  refine matchStr_absent "xy".toList "abcd".toList "StreetName" ?_ (by decide)
  intro j hj
  have hj4 : j ≤ 1 := by
    have := List.length_drop j "abcd".toList
    simp at hj ⊢
    omega
  interval_cases j <;> decide

/-! ### ParseAddress on the empty candidate list (C7) -/

/-- C7: on an empty candidate list, `ParseAddress` returns no result — the
`IndexError` of `result[0]` is caught by the function's own `try/except`, so
the caller sees `None` for this address rather than a propagating
exception. -/
theorem ParseAddress_empty_list (inputAddress : List Char) :
    ParseAddress [] inputAddress = none := rfl

/-! ### ThrottledClientSession construction (C8) -/

/-- C8: constructing the rate-limited session with a non-positive
`rate_limit` raises the configuration `ValueError` before any queue or
filler task exists; with a positive `rate_limit` construction succeeds and
records the queue capacity `min(2, int(rate_limit) + 1)`. -/
theorem throttledClientSessionInit_check (r : ℚ) :
    (r ≤ 0 → throttledClientSessionInit (some r) =
       .error "rate_limit must be positive") ∧
    (0 < r → throttledClientSessionInit (some r) =
       .ok ⟨some r, some (min 2 (pyIntTrunc r + 1))⟩) := by
  constructor
  · intro h
    simp [throttledClientSessionInit, h]
  · intro h
    simp [throttledClientSessionInit, not_le.mpr h]

theorem throttledClientSessionInit_check_witness :
    throttledClientSessionInit (some (-1)) = .error "rate_limit must be positive" ∧
    throttledClientSessionInit (some 20) = .ok ⟨some 20, some 2⟩ := by
  constructor
  · exact (throttledClientSessionInit_check (-1)).1 (by norm_num)
  · have h := (throttledClientSessionInit_check 20).2 (by norm_num)
    rw [h]
    norm_num [pyIntTrunc]

/-! ### The retry/backoff schedule of get_data (C6) -/

theorem getDataLoop_schedule (attemptFails : Nat → Bool) (maxRetries n : Nat)
    (sleepMultiplier : ℚ)
    (hn : n ≤ maxRetries)
    (hfail : ∀ r, r < n → attemptFails r = true)
    (hstop : n = maxRetries ∨ attemptFails n = false) :
    ∀ (k i : Nat), i + k = n →
      getDataLoop attemptFails maxRetries sleepMultiplier (maxRetries - i) i =
        ((List.range' i (n - i)).map (backoffSleep sleepMultiplier),
         (n, decide (n < maxRetries))) := by
  intro k
  induction k with
  | zero =>
    intro i hik
    have hin : i = n := by omega
    subst hin
    by_cases hlt : i < maxRetries
    · have hfails : attemptFails i = false := by
        rcases hstop with hstop | hstop
        · exact absurd hstop (Nat.ne_of_lt hlt)
        · exact hstop
      have hfuel : maxRetries - i = (maxRetries - i - 1) + 1 := by omega
      rw [hfuel]
      simp [getDataLoop, hlt, hfails]
    · have him : i = maxRetries := by omega
      subst him
      simp [getDataLoop, Nat.lt_irrefl]
  | succ k ih =>
    intro i hik
    have hilt : i < n := by omega
    have hltm : i < maxRetries := by omega
    have hfuel : maxRetries - i = (maxRetries - (i + 1)) + 1 := by omega
    have hrange : n - i = (n - (i + 1)) + 1 := by omega
    rw [hfuel]
    simp only [getDataLoop, hltm, if_true, hfail i hilt, if_pos]
    rw [ih (i + 1) (by omega), hrange, List.range'_succ]
    simp

/-- C6: whenever the first `n` attempts of `get_data`'s retry loop fail and
the loop then stops (because the next attempt succeeds or because
`maxRetries` is exhausted), the backoff sleeps performed are exactly
`[backoff(0), backoff(1), ..., backoff(n-1)]`, where `backoff(0) = 1` and
`backoff(k) = sleepMultiplier * k` for `k ≥ 1` — one sleep per failure, no
jitter, and never more than `maxRetries` of them.  The source defaults are
`maxRetries = 10` and `sleepMultiplier = 2`. -/
theorem getData_backoff_schedule (attemptFails : Nat → Bool) (maxRetries n : Nat)
    (sleepMultiplier : ℚ)
    (hn : n ≤ maxRetries)
    (hfail : ∀ r, r < n → attemptFails r = true)
    (hstop : n = maxRetries ∨ attemptFails n = false) :
    getDataSleeps attemptFails maxRetries sleepMultiplier =
      (List.range n).map (backoffSleep sleepMultiplier) ∧
    (getDataSleeps attemptFails maxRetries sleepMultiplier).length = n ∧
    backoffSleep sleepMultiplier 0 = 1 ∧
    (∀ k, 1 ≤ k → backoffSleep sleepMultiplier k = sleepMultiplier * k) := by
  have h := getDataLoop_schedule attemptFails maxRetries n sleepMultiplier hn hfail hstop
    n 0 (by omega)
  have hsleeps : getDataSleeps attemptFails maxRetries sleepMultiplier =
      (List.range n).map (backoffSleep sleepMultiplier) := by
    unfold getDataSleeps getDataRun
    rw [show maxRetries - 0 = maxRetries from rfl] at h
    rw [h, List.range_eq_range']
    simp
  refine ⟨hsleeps, by rw [hsleeps]; simp, by simp [backoffSleep], ?_⟩
  intro k hk
  simp [backoffSleep, Nat.one_le_iff_ne_zero.mp hk]

theorem getData_backoff_schedule_witness :
    getDataSleeps (fun r => decide (r < 3)) 10 2 = [1, 2, 4] ∧
    getDataSleeps (fun _ => true) 10 2 = [1, 2, 4, 6, 8, 10, 12, 14, 16, 18] ∧
    (getDataSleeps (fun _ => true) 10 2).length = 10 := by
  have h1 := getData_backoff_schedule (fun r => decide (r < 3)) 10 3 2 (by norm_num)
    (by decide) (Or.inr (by decide))
  have h2 := getData_backoff_schedule (fun _ => true) 10 10 2 (le_refl 10)
    (fun r _ => rfl) (Or.inl rfl)
  refine ⟨?_, ?_, h2.2.1⟩
  · rw [h1.1, (by decide : List.range 3 = [0, 1, 2])]
    norm_num [backoffSleep]
  · rw [h2.1, (by decide : List.range 10 = [0, 1, 2, 3, 4, 5, 6, 7, 8, 9])]
    norm_num [backoffSleep]

/-! ### Gather slot-filling and batch output order (C9) -/

theorem gatherFill_getElem {α : Type} (tasks : List α) :
    ∀ (order : List Nat) (init : List (Option α)) (j : Nat),
      (order.foldl (fun acc i => acc.set i tasks[i]?) init)[j]? =
        if j ∈ order ∧ j < init.length then some tasks[j]? else init[j]?
  | [], init, j => by simp
  | i :: rest, init, j => by
    rw [List.foldl_cons, gatherFill_getElem tasks rest (init.set i tasks[i]?) j,
        List.length_set]
    by_cases hlen : j < init.length
    · by_cases hjr : j ∈ rest
      · simp [hjr, hlen, List.mem_cons]
      · by_cases hij : j = i
        · subst hij
          simp [hjr, hlen, List.mem_cons, List.getElem?_set]
        · simp [hjr, hlen, List.mem_cons, hij,
                List.getElem?_set_ne fun h => hij h.symm]
    · have h1 : init[j]? = none := List.getElem?_eq_none (by omega)
      have h2 : (init.set i tasks[i]?)[j]? = none := by
        apply List.getElem?_eq_none
        rw [List.length_set]
        omega
      simp [hlen, h1, h2]

/-- Whatever order the scheduler completes the tasks in, as long as every
task index completes, the gathered slot array holds each task's own result
at the task's own position. -/
theorem gatherModel_eq_map_some {α : Type} (tasks : List α) (order : List Nat)
    (hcov : ∀ j, j < tasks.length → j ∈ order) :
    gatherModel tasks order = tasks.map some := by
  apply List.ext_getElem?
  intro j
  unfold gatherModel
  rw [gatherFill_getElem tasks order (List.replicate tasks.length none) j]
  by_cases hj : j < tasks.length
  · simp [hcov j hj, hj, List.getElem?_map, List.getElem?_eq_getElem hj]
  · have hnone : tasks[j]? = none := by
      simp [List.getElem?_eq_none_iff]
      omega
    simp [hj, List.getElem?_map, hnone, List.getElem?_replicate]

theorem length_filterMap_add_countP_none {α β : Type} (resolve : α → Option β) :
    ∀ (l : List α),
      (l.filterMap resolve).length + (l.countP fun a => (resolve a).isNone) = l.length
  | [] => rfl
  | a :: t => by
    have ih := length_filterMap_add_countP_none resolve t
    cases h : resolve a <;>
      simp [List.filterMap_cons, h, List.countP_cons] <;> omega

/-- C9: a batch of `K` addresses of which `M` resolve to no record yields
exactly `K - M` output records, in the relative order of their addresses in
the input — independently of the order in which the scheduler completes the
concurrent resolutions, because `asyncio.gather` stores each task's result
at the task's own index. -/
theorem batchOutput_order_and_count {α : Type} (resolve : List Char → Option α)
    (addresses : List (List Char)) (completionOrder : List Nat)
    (hperm : completionOrder.Perm (List.range addresses.length)) :
    batchOutput resolve addresses completionOrder = addresses.filterMap resolve ∧
    (batchOutput resolve addresses completionOrder).length +
        (addresses.countP fun a => (resolve a).isNone) = addresses.length ∧
    (batchOutput resolve addresses completionOrder).length =
      addresses.length - (addresses.countP fun a => (resolve a).isNone) := by
  have hcov : ∀ j, j < (addresses.map resolve).length → j ∈ completionOrder := by
    intro j hj
    rw [List.length_map] at hj
    exact hperm.mem_iff.mpr (List.mem_range.mpr hj)
  have hout : batchOutput resolve addresses completionOrder =
      addresses.filterMap resolve := by
    simp only [batchOutput]
    rw [gatherModel_eq_map_some (addresses.map resolve) completionOrder hcov]
    simp [List.map_map, Function.comp]
    have hcomp : ((fun slot : Option (Option α) => slot.getD none) ∘ some ∘ resolve) = resolve := by
      funext a
      simp
    rw [hcomp]
  have hcount := length_filterMap_add_countP_none resolve addresses
  refine ⟨hout, by rw [hout]; exact hcount, by rw [hout]; omega⟩

theorem batchOutput_order_and_count_witness :
    batchOutput (fun a => if a.length == 1 then none else some a)
        ["ab".toList, "c".toList, "de".toList, "f".toList, "gh".toList]
        [4, 0, 2, 3, 1] =
      ["ab".toList, "de".toList, "gh".toList] ∧
    (batchOutput (fun a => if a.length == 1 then none else some a)
        ["ab".toList, "c".toList, "de".toList, "f".toList, "gh".toList]
        [4, 0, 2, 3, 1]).length = 5 - 2 := by
  have h := batchOutput_order_and_count
    (fun a => if a.length == 1 then none else some a)
    ["ab".toList, "c".toList, "de".toList, "f".toList, "gh".toList]
    [4, 0, 2, 3, 1] (by decide)
  refine ⟨?_, ?_⟩
  · rw [h.1]; decide
  · rw [h.2.2]; decide

/-! ### Building-number range rejection in matchChiStreetOrVillage (C5) -/

/-- C5: for a street candidate carrying a `BuildingNoFrom`, when the street
name matches the address and a building-number range is parsed from the
address text right after the street span, but the candidate's
`[from, to]` range and the parsed `[from, to]` range do not overlap — with
missing `to` bounds first normalized to the corresponding `from`, and the
bounds compared as strings (Python string `<`), not as numbers — the
emitted `BuildingNoFrom` and `BuildingNoTo` matches carry an absent span,
even though the street name match itself is kept with its present span. -/
theorem matchChiStreet_rejects_nonoverlapping_range
    (inAddr s f t w : List Char) (inDict : OgcioDict) (sp : Nat × Nat)
    (stop : Nat) (pf pt : List Char)
    (hv : dictLookup inDict "VillageName" = none)
    (hs : dictLookup inDict "StreetName" = some (.vstr s))
    (hf : dictLookup inDict "BuildingNoFrom" = some (.vstr f))
    (ht : dictLookup inDict "BuildingNoTo" = some (.vstr t))
    (hfne : f ≠ [])
    (hw : lastWord s = some w)
    (hsp : (matchStrOne inAddr "StreetName" w).matchSpan = some sp)
    (hparse : bldgNoMatch (inAddr.drop sp.2) = some (stop, (pf, pt)))
    (hno : (pyStrLt (if t.isEmpty then f else t) pf ||
            pyStrLt (if pt.isEmpty then pf else pt) f) = true) :
    matchChiStreetOrVillage inAddr inDict =
      some [matchStrOne inAddr "StreetName" w,
            ⟨"BuildingNoFrom", f, none, some (if pf = f then 1 else 1/2)⟩,
            ⟨"BuildingNoTo", if t.isEmpty then f else t, none,
             some (if (if pt.isEmpty then pf else pt) = (if t.isEmpty then f else t)
                   then 1 else 1/2)⟩] ∧
    (matchStrOne inAddr "StreetName" w).matchSpan = some sp := by
  have hfe : f.isEmpty = false := by
    cases f with
    | nil => exact absurd rfl hfne
    | cons c cs => rfl
  refine ⟨?_, hsp⟩
  simp only [matchChiStreetOrVillage, matchChiStreetTail, hv, hs, hw, hf, ht,
             getStrDefault, hfe, hsp, hparse, Bool.false_eq_true, if_false]
  simp only [List.isEmpty_iff] at hno
  rw [Bool.or_eq_true] at hno
  rcases hno with hno | hno <;> simp [hno]

theorem matchChiStreet_rejects_witness :
    (matchChiStreetOrVillage "甲街2-60號".toList
        (.dcons "StreetName" (.vstr "甲街".toList)
          (.dcons "BuildingNoFrom" (.vstr "50".toList)
            (.dcons "BuildingNoTo" (.vstr "100".toList) .dnil)))).map
        (List.map FieldMatch.matchSpan) =
      some [some (0, 2), none, none] ∧
    pyStrLt "100".toList "2".toList = true ∧
    ((2:Nat) ≤ 50 ∧ 50 ≤ 60) := by
  have h := matchChiStreet_rejects_nonoverlapping_range
    "甲街2-60號".toList "甲街".toList "50".toList "100".toList "甲街".toList
    (.dcons "StreetName" (.vstr "甲街".toList)
      (.dcons "BuildingNoFrom" (.vstr "50".toList)
        (.dcons "BuildingNoTo" (.vstr "100".toList) .dnil)))
    (0, 2) 5 "2".toList "60".toList
    (by decide) (by decide) (by decide) (by decide) (by decide) (by decide)
    (by decide) (by decide) (by decide)
  rw [h.1]
  refine ⟨by decide, by decide, by decide, by decide⟩

/-! ### Coverage mask and score aggregation (C2) -/

theorem setMaskTrue_some {mask mask' : List Bool} {i : Nat}
    (h : setMaskTrue mask i = some mask') :
    mask'.length = mask.length ∧ mask'[i]? = some true ∧
    (∀ j : Nat, mask[j]? = some true → mask'[j]? = some true) := by
  unfold setMaskTrue at h
  by_cases hi : i < mask.length
  · rw [if_pos hi, Option.some.injEq] at h
    subst h
    refine ⟨List.length_set mask i true, ?_, ?_⟩
    · rw [List.getElem?_set]
      simp [hi]
    · intro j hj
      rw [List.getElem?_set]
      by_cases hij : i = j
      · subst hij
        simp [hi]
      · simp [hij, hj]
  · rw [if_neg hi] at h
    exact Option.noConfusion h

theorem foldlM_setMaskTrue_some :
    ∀ (len a : Nat) (mask mask' : List Bool),
      (List.range' a len).foldlM setMaskTrue mask = some mask' →
      mask'.length = mask.length ∧
      (∀ j : Nat, mask[j]? = some true → mask'[j]? = some true) ∧
      (∀ j : Nat, a ≤ j → j < a + len → mask'[j]? = some true)
  | 0, a, mask, mask' => by
    intro h
    simp only [List.range'_zero, List.foldlM_nil, Option.pure_def,
               Option.some.injEq] at h
    subst h
    exact ⟨rfl, fun j hj => hj, fun j hj1 hj2 => absurd hj2 (by omega)⟩
  | len + 1, a, mask, mask' => by
    intro h
    rw [List.range'_succ, List.foldlM_cons] at h
    obtain ⟨m1, hm1, hrest⟩ := Option.bind_eq_some.mp h
    obtain ⟨hlen1, hset1, hpres1⟩ := setMaskTrue_some hm1
    obtain ⟨hlen2, hpres2, hcov2⟩ := foldlM_setMaskTrue_some len (a + 1) m1 mask' hrest
    refine ⟨hlen2.trans hlen1, fun j hj => hpres2 j (hpres1 j hj), ?_⟩
    intro j hj1 hj2
    by_cases hja : j = a
    · subst hja
      exact hpres2 j hset1
    · exact hcov2 j (by omega) (by omega)

theorem setTrueRange_some {mask mask' : List Bool} {a b : Nat}
    (h : setTrueRange mask a b = some mask') :
    mask'.length = mask.length ∧
    (∀ j : Nat, mask[j]? = some true → mask'[j]? = some true) ∧
    (∀ j : Nat, a ≤ j → j < b → mask'[j]? = some true) := by
  obtain ⟨h1, h2, h3⟩ := foldlM_setMaskTrue_some (b - a) a mask mask' h
  exact ⟨h1, h2, fun j hj1 hj2 => h3 j hj1 (by omega)⟩

/-- Everything the aggregation loop of `getSimilarityWithOgcio` guarantees
when it completes: the final score is the initial score plus the sum of the
per-match contributions, the mask keeps its length and its `true` bits, a
present span always came with a present goodness, and every index inside a
present span ends up `true`. -/
theorem foldlM_applyMatch_props :
    ∀ (ms : List FieldMatch) (st st' : ℚ × List Bool),
      ms.foldlM applyMatch st = some st' →
      st'.1 = st.1 + (ms.map matchContribution).sum ∧
      st'.2.length = st.2.length ∧
      (∀ j : Nat, st.2[j]? = some true → st'.2[j]? = some true) ∧
      (∀ fm ∈ ms, fm.matchSpan.isSome → fm.goodness.isSome) ∧
      (∀ fm ∈ ms, ∀ a b, fm.matchSpan = some (a, b) →
        ∀ j : Nat, a ≤ j → j < b → st'.2[j]? = some true)
  | [], st, st' => by
    intro h
    simp only [List.foldlM_nil, Option.pure_def, Option.some.injEq] at h
    subst h
    simp
  | fm :: rest, st, st' => by
    intro h
    rw [List.foldlM_cons] at h
    obtain ⟨st1, hst1, hrest⟩ := Option.bind_eq_some.mp h
    obtain ⟨ihscore, ihlen, ihpres, ihgood, ihcov⟩ :=
      foldlM_applyMatch_props rest st1 st' hrest
    cases hspan : fm.matchSpan with
    | none =>
      rw [applyMatch, hspan, Option.some.injEq] at hst1
      subst hst1
      refine ⟨?_, ihlen, ihpres, ?_, ?_⟩
      · rw [ihscore]
        simp [matchContribution, hspan]
        ring
      · intro fm' hfm' hs
        rcases List.mem_cons.mp hfm' with hfm' | hfm'
        · subst hfm'
          rw [hspan] at hs
          exact absurd hs (by simp)
        · exact ihgood fm' hfm' hs
      · intro fm' hfm' a b hab j hj1 hj2
        rcases List.mem_cons.mp hfm' with hfm' | hfm'
        · subst hfm'
          rw [hspan] at hab
          exact Option.noConfusion hab
        · exact ihcov fm' hfm' a b hab j hj1 hj2
    | some sp =>
      cases hg : fm.goodness with
      | none =>
        rw [applyMatch, hspan, hg] at hst1
        simp at hst1
      | some g =>
        cases hset : setTrueRange st.2 sp.1 sp.2 with
        | none =>
          rw [applyMatch, hspan, hg] at hst1
          simp [hset] at hst1
        | some m2 =>
          rw [applyMatch, hspan, hg] at hst1
          simp [hset] at hst1
          subst hst1
          obtain ⟨hslen, hspres, hscov⟩ := setTrueRange_some hset
          refine ⟨?_, ihlen.trans hslen, fun j hj => ihpres j (hspres j hj), ?_, ?_⟩
          · rw [ihscore]
            simp [matchContribution, hspan, hg]
            ring
          · intro fm' hfm' hs
            rcases List.mem_cons.mp hfm' with hfm' | hfm'
            · subst hfm'
              rw [hg]
              rfl
            · exact ihgood fm' hfm' hs
          · intro fm' hfm' a b hab j hj1 hj2
            rcases List.mem_cons.mp hfm' with hfm' | hfm'
            · subst hfm'
              rw [hspan, Option.some.injEq] at hab
              subst hab
              exact ihpres j (hscov j hj1 hj2)
            · exact ihcov fm' hfm' a b hab j hj1 hj2

/-- C2: when `getSimilarityWithOgcio` succeeds, its total score is exactly
the sum, over all produced FieldMatches, of `-1` for each match with an
absent span (regardless of the field name) and `weight(fieldName) *
goodness` for each match with a present span, with the weights of the
source's `scoreDict` (Region 10, StreetName 20, VillageName 20, EstateName
20, BuildingNoFrom 30, BuildingNoTo 30, BuildingName 40, anything else 0);
and every character position inside a present span is marked `true` in the
coverage mask. -/
theorem getSimilarity_score_and_coverage (inAddr : List Char)
    (ogcioResult : OgcioDict) (s : Similarity)
    (h : getSimilarityWithOgcio inAddr ogcioResult = some s) :
    s.score = (s.ogcioMatches.map matchContribution).sum ∧
    (∀ fm ∈ s.ogcioMatches, fm.matchSpan = none → matchContribution fm = -1) ∧
    (∀ fm ∈ s.ogcioMatches, ∀ g sp, fm.goodness = some g → fm.matchSpan = some sp →
       matchContribution fm = scoreDict fm.fieldName * g) ∧
    (∀ fm ∈ s.ogcioMatches, fm.matchSpan.isSome → fm.goodness.isSome) ∧
    (∀ fm ∈ s.ogcioMatches, ∀ a b, fm.matchSpan = some (a, b) →
       ∀ j : Nat, a ≤ j → j < b → s.inAddrHasMatch[j]? = some true) ∧
    (scoreDict "Region" = 10 ∧ scoreDict "StreetName" = 20 ∧
     scoreDict "VillageName" = 20 ∧ scoreDict "EstateName" = 20 ∧
     scoreDict "BuildingNoFrom" = 30 ∧ scoreDict "BuildingNoTo" = 30 ∧
     scoreDict "BuildingName" = 40) ∧
    (∀ fieldName, fieldName ≠ "Region" → fieldName ≠ "StreetName" →
       fieldName ≠ "VillageName" → fieldName ≠ "EstateName" →
       fieldName ≠ "BuildingNoFrom" → fieldName ≠ "BuildingNoTo" →
       fieldName ≠ "BuildingName" → scoreDict fieldName = 0) := by
  obtain ⟨ms, hms, hrest⟩ := Option.bind_eq_some.mp h
  obtain ⟨st, hst, hs⟩ := Option.bind_eq_some.mp hrest
  rw [Option.pure_def, Option.some.injEq] at hs
  subst hs
  obtain ⟨hscore, _, _, hgood, hcov⟩ :=
    foldlM_applyMatch_props ms (0, List.replicate inAddr.length false) st hst
  refine ⟨by rw [hscore]; ring, ?_, ?_, hgood, hcov, ⟨rfl, rfl, rfl, rfl, rfl, rfl, rfl⟩, ?_⟩
  · intro fm _ hspan
    simp [matchContribution, hspan]
  · intro fm _ g sp hg hsp
    simp [matchContribution, hsp, hg]
  · intro fieldName h1 h2 h3 h4 h5 h6 h7
    simp [scoreDict, h1, h2, h3, h4, h5, h6, h7]

theorem getSimilarity_score_witness :
    ∃ s, getSimilarityWithOgcio "香港大廈".toList
        (.dcons "Region" (.vstr "香港".toList)
          (.dcons "BuildingName" (.vstr "大廈".toList) .dnil)) = some s ∧
      s.score = (s.ogcioMatches.map matchContribution).sum := by
  have hs : (getSimilarityWithOgcio "香港大廈".toList
      (.dcons "Region" (.vstr "香港".toList)
        (.dcons "BuildingName" (.vstr "大廈".toList) .dnil))).isSome = true := by
    decide
  obtain ⟨s, h⟩ := Option.isSome_iff_exists.mp hs
  exact ⟨s, h, (getSimilarity_score_and_coverage _ _ s h).1⟩

/-! ### Span bounds of the matchers (C10) -/

theorem matchStrGo_span_bound (inAddr inStr : List Char) :
    ∀ (fuel i : Nat) (sp : Nat × Nat) (g : Option ℚ),
      matchStrGo inAddr inStr fuel i = (some sp, g) →
      sp.1 ≤ sp.2 ∧ sp.2 ≤ inAddr.length ∧ g.isSome
  | 0, i, sp, g => by
    intro h
    simp [matchStrGo] at h
  | fuel + 1, i, sp, g => by
    intro h
    by_cases hfind : 0 ≤ strFind inAddr (inStr.drop i)
    · rw [matchStrGo_found inAddr inStr fuel i hfind, Prod.mk.injEq] at h
      obtain ⟨h1, h2⟩ := h
      rw [Option.some.injEq] at h1
      subst h1
      have hb := (strFind_found inAddr (inStr.drop i) hfind).2
      exact ⟨Nat.le_add_right _ _, hb, by rw [← h2]; rfl⟩
    · have hfind' : strFind inAddr (inStr.drop i) < 0 := by omega
      by_cases h3 : inStr.length - i ≤ 3
      · simp [matchStrGo, hfind, h3] at h
      · by_cases hh : inStr.length / 2 ≤ i
        · simp [matchStrGo, hfind, h3, hh] at h
        · rw [matchStrGo_step inAddr inStr fuel i hfind' (by omega) (by omega)] at h
          exact matchStrGo_span_bound inAddr inStr fuel (i + 1) sp g h

/-- Every span `matchStr` emits is a well-formed range inside the query, and
a present span always comes with a present goodness. -/
theorem matchStrOne_bound (inAddr : List Char) (fieldName : String)
    (inStr : List Char) :
    (∀ a b : Nat, (matchStrOne inAddr fieldName inStr).matchSpan = some (a, b) →
       a ≤ b ∧ b ≤ inAddr.length) ∧
    ((matchStrOne inAddr fieldName inStr).matchSpan.isSome →
       (matchStrOne inAddr fieldName inStr).goodness.isSome) := by
  have hms : (matchStrOne inAddr fieldName inStr).matchSpan =
      (matchStrGo inAddr inStr inStr.length 0).1 := rfl
  have hgd : (matchStrOne inAddr fieldName inStr).goodness =
      (matchStrGo inAddr inStr inStr.length 0).2 := rfl
  rw [hms, hgd]
  cases hgo : matchStrGo inAddr inStr inStr.length 0 with
  | mk o q =>
    cases o with
    | none =>
      exact ⟨fun a b hab => Option.noConfusion hab, fun hs => absurd hs (by simp)⟩
    | some sp =>
      obtain ⟨h1, h2, h3⟩ := matchStrGo_span_bound inAddr inStr inStr.length 0 sp q hgo
      refine ⟨?_, fun _ => h3⟩
      intro a b hab
      rw [Option.some.injEq] at hab
      subst hab
      exact ⟨h1, h2⟩

/-- The building-number regex never matches past the end of its input: the
end offset of a successful match is at most the input length. -/
theorem bldgNoMatch_stop_le (s : List Char) (stop : Nat)
    (gs : List Char × List Char) (h : bldgNoMatch s = some (stop, gs)) :
    stop ≤ s.length := by
  have l1 := congrArg List.length (List.takeWhile_append_dropWhile isBNoChar s)
  have l2 := congrArg List.length
    (List.takeWhile_append_dropWhile isRangeSep (s.dropWhile isBNoChar))
  have l3 := congrArg List.length
    (List.takeWhile_append_dropWhile isBNoChar
      ((s.dropWhile isBNoChar).dropWhile isRangeSep))
  rw [List.length_append] at l1 l2 l3
  simp only [bldgNoMatch] at h
  split at h
  · exact Option.noConfusion h
  · split at h
    · rename_i c tail heq
      split at h
      · rw [Option.some.injEq, Prod.mk.injEq] at h
        have hlen : (((s.dropWhile isBNoChar).dropWhile isRangeSep).dropWhile
            isBNoChar).length = tail.length + 1 := by
          rw [heq]
          rfl
        omega
      · exact Option.noConfusion h
    · exact Option.noConfusion h

theorem matchChiStreetTail_bounds (inAddr rawName : List Char) (inDict : OgcioDict)
    (key : String) (ms : List FieldMatch)
    (h : matchChiStreetTail inAddr inDict key rawName = some ms) :
    ∀ fm ∈ ms,
      (∀ a b : Nat, fm.matchSpan = some (a, b) → a ≤ b ∧ b ≤ inAddr.length) ∧
      (fm.matchSpan.isSome → fm.goodness.isSome) := by
  cases hlw : lastWord rawName with
  | none =>
    simp only [matchChiStreetTail, hlw] at h
    exact Option.noConfusion h
  | some inStr =>
    simp only [matchChiStreetTail, hlw] at h
    have hstreet := matchStrOne_bound inAddr key inStr
    cases hbf : getStrDefault (dictLookup inDict "BuildingNoFrom") with
    | none =>
      simp only [hbf] at h
      exact Option.noConfusion h
    | some ogFrom =>
      simp only [hbf] at h
      by_cases hempty : ogFrom.isEmpty = true
      · simp only [hempty, if_true, Option.some.injEq] at h
        subst h
        intro fm hfm
        rw [List.mem_singleton] at hfm
        subst hfm
        exact hstreet
      · rw [Bool.not_eq_true] at hempty
        simp only [hempty, Bool.false_eq_true, if_false] at h
        cases hbt : getStrDefault (dictLookup inDict "BuildingNoTo") with
        | none =>
          simp only [hbt] at h
          exact Option.noConfusion h
        | some ogTo0 =>
          simp only [hbt] at h
          cases hsp : (matchStrOne inAddr key inStr).matchSpan with
          | none =>
            simp only [hsp, Option.map_none', Option.getD_none, ite_self,
                       Option.some.injEq] at h
            subst h
            intro fm hfm
            rcases List.mem_cons.mp hfm with rfl | hfm
            · exact hstreet
            · rcases List.mem_append.mp hfm with hf | hf <;>
              · split at hf
                · rw [List.mem_singleton] at hf
                  subst hf
                  exact ⟨fun a b hab => Option.noConfusion hab,
                         fun hs => absurd hs (by simp)⟩
                · simp at hf
          | some mp =>
            simp only [hsp] at h
            cases hbm : bldgNoMatch (inAddr.drop mp.2) with
            | none =>
              simp only [hbm, Option.map_none', Option.getD_none, ite_self,
                         Option.some.injEq] at h
              subst h
              intro fm hfm
              rcases List.mem_cons.mp hfm with rfl | hfm
              · exact hstreet
              · rcases List.mem_append.mp hfm with hf | hf <;>
                · split at hf
                  · rw [List.mem_singleton] at hf
                    subst hf
                    exact ⟨fun a b hab => Option.noConfusion hab,
                           fun hs => absurd hs (by simp)⟩
                  · simp at hf
            | some pr =>
              obtain ⟨stop, gs⟩ := pr
              have hspb := hstreet.1 mp.1 mp.2 (by rw [hsp])
              have hstop := bldgNoMatch_stop_le (inAddr.drop mp.2) stop gs hbm
              rw [List.length_drop] at hstop
              simp only [hbm, Option.map_some', Option.getD_some,
                         Option.some.injEq] at h
              set cond := (pyStrLt (if ogTo0.isEmpty = true then ogFrom else ogTo0)
                  gs.1 ||
                pyStrLt (if gs.2.isEmpty = true then gs.1 else gs.2) ogFrom) with hcond
              by_cases hov : cond = true
              · rw [hov] at h
                simp only [eq_self_iff_true, if_true] at h
                subst h
                intro fm hfm
                rcases List.mem_cons.mp hfm with rfl | hfm
                · exact hstreet
                · rcases List.mem_append.mp hfm with hf | hf <;>
                  · split at hf
                    · rw [List.mem_singleton] at hf
                      subst hf
                      exact ⟨fun a b hab => Option.noConfusion hab,
                             fun hs => absurd hs (by simp)⟩
                    · simp at hf
              · rw [Bool.not_eq_true] at hov
                simp only [hov, Bool.false_eq_true, if_false] at h
                subst h
                intro fm hfm
                rcases List.mem_cons.mp hfm with rfl | hfm
                · exact hstreet
                · rcases List.mem_append.mp hfm with hf | hf <;>
                  · split at hf
                    · rw [List.mem_singleton] at hf
                      subst hf
                      refine ⟨?_, fun _ => rfl⟩
                      intro a b hab
                      rw [Option.some.injEq, Prod.mk.injEq] at hab
                      obtain ⟨ha, hb⟩ := hab
                      subst ha
                      subst hb
                      omega
                    · simp at hf

/-- Every FieldMatch produced by `matchChiStreetOrVillage` carries a span
inside the query and a goodness whenever the span is present. -/
theorem matchChiStreetOrVillage_bounds (inAddr : List Char) (inDict : OgcioDict)
    (ms : List FieldMatch) (h : matchChiStreetOrVillage inAddr inDict = some ms) :
    ∀ fm ∈ ms,
      (∀ a b : Nat, fm.matchSpan = some (a, b) → a ≤ b ∧ b ≤ inAddr.length) ∧
      (fm.matchSpan.isSome → fm.goodness.isSome) := by
  rw [matchChiStreetOrVillage] at h
  split at h
  · exact matchChiStreetTail_bounds inAddr _ inDict "VillageName" ms h
  · exact Option.noConfusion h
  · split at h
    · exact matchChiStreetTail_bounds inAddr _ inDict "StreetName" ms h
    · exact Option.noConfusion h
    · exact Option.noConfusion h

mutual
theorem matchItem_bounds (inAddr : List Char) (k : String) (v : OgcioVal)
    (ms : List FieldMatch) (h : matchItem inAddr k v = some ms) :
    ∀ fm ∈ ms,
      (∀ a b : Nat, fm.matchSpan = some (a, b) → a ≤ b ∧ b ≤ inAddr.length) ∧
      (fm.matchSpan.isSome → fm.goodness.isSome) := by
  rw [matchItem.eq_def] at h
  split at h
  · split at h
    · exact matchChiStreetOrVillage_bounds inAddr _ ms h
    · exact Option.noConfusion h
  · split at h
    · exact matchDict_bounds inAddr _ ms h
    · rw [Option.some.injEq] at h
      subst h
      intro fm hfm
      rw [matchStr, List.mem_singleton] at hfm
      subst hfm
      exact matchStrOne_bound inAddr k _
    · rw [Option.some.injEq] at h
      subst h
      intro fm hfm
      exact absurd hfm (List.not_mem_nil fm)

theorem matchDict_bounds (inAddr : List Char) (d : OgcioDict)
    (ms : List FieldMatch) (h : matchDict inAddr d = some ms) :
    ∀ fm ∈ ms,
      (∀ a b : Nat, fm.matchSpan = some (a, b) → a ≤ b ∧ b ≤ inAddr.length) ∧
      (fm.matchSpan.isSome → fm.goodness.isSome) := by
  cases d with
  | dnil =>
    simp only [matchDict.eq_def, Option.some.injEq] at h
    subst h
    intro fm hfm
    exact absurd hfm (List.not_mem_nil fm)
  | dcons k v rest =>
    rw [matchDict.eq_def] at h
    cases h1 : matchItem inAddr k v with
    | none =>
      simp only [h1] at h
      exact Option.noConfusion h
    | some ms1 =>
      cases h2 : matchDict inAddr rest with
      | none =>
        simp only [h1, h2] at h
        exact Option.noConfusion h
      | some ms2 =>
        simp only [h1, h2, Option.some.injEq] at h
        subst h
        intro fm hfm
        rcases List.mem_append.mp hfm with hf | hf
        · exact matchItem_bounds inAddr k v ms1 h1 fm hf
        · exact matchDict_bounds inAddr rest ms2 h2 fm hf
end

theorem foldlM_setMaskTrue_total :
    ∀ (len a : Nat) (mask : List Bool), a + len ≤ mask.length →
      ∃ m', (List.range' a len).foldlM setMaskTrue mask = some m'
  | 0, a, mask => fun _ => ⟨mask, by simp⟩
  | len + 1, a, mask => fun hle => by
    have ha : a < mask.length := by omega
    have h1 : setMaskTrue mask a = some (mask.set a true) := by
      unfold setMaskTrue
      rw [if_pos ha]
    obtain ⟨m', hm'⟩ := foldlM_setMaskTrue_total len (a + 1) (mask.set a true)
      (by rw [List.length_set]; omega)
    refine ⟨m', ?_⟩
    rw [List.range'_succ, List.foldlM_cons, h1]
    simpa using hm'

/-- When every span is inside the mask and comes with a goodness, the
aggregation loop never raises. -/
theorem foldlM_applyMatch_total :
    ∀ (ms : List FieldMatch) (st : ℚ × List Bool),
      (∀ fm ∈ ms, (∀ a b : Nat, fm.matchSpan = some (a, b) →
                      a ≤ b ∧ b ≤ st.2.length) ∧
                  (fm.matchSpan.isSome → fm.goodness.isSome)) →
      ∃ st', ms.foldlM applyMatch st = some st'
  | [], st => fun _ => ⟨st, by simp⟩
  | fm :: rest, st => fun hb => by
    obtain ⟨hbb, hbg⟩ := hb fm (List.mem_cons_self fm rest)
    have hstep : ∃ st1, applyMatch st fm = some st1 ∧ st1.2.length = st.2.length := by
      cases hspan : fm.matchSpan with
      | none =>
        refine ⟨(st.1 - 1, st.2), ?_, rfl⟩
        rw [applyMatch, hspan]
      | some sp =>
        obtain ⟨g, hg⟩ := Option.isSome_iff_exists.mp (hbg (by rw [hspan]; rfl))
        obtain ⟨hab, hbl⟩ := hbb sp.1 sp.2 (by rw [hspan])
        obtain ⟨m', hm'⟩ := foldlM_setMaskTrue_total (sp.2 - sp.1) sp.1 st.2 (by omega)
        have hrange : setTrueRange st.2 sp.1 sp.2 = some m' := hm'
        refine ⟨(st.1 + scoreDict fm.fieldName * g, m'), ?_, ?_⟩
        · rw [applyMatch, hspan, hg]
          simp only [hrange, Option.map_some']
        · exact (foldlM_setMaskTrue_some (sp.2 - sp.1) sp.1 st.2 m' hm').1
    obtain ⟨st1, hst1, hlen⟩ := hstep
    obtain ⟨st', hst'⟩ := foldlM_applyMatch_total rest st1
      (fun fm' hf => by
        have hb' := hb fm' (List.mem_cons_of_mem fm hf)
        rwa [hlen])
    refine ⟨st', ?_⟩
    rw [List.foldlM_cons, hst1]
    simpa using hst'

/-- C10: every FieldMatch produced by `matchDict` (hence by `matchStr` and
`matchChiStreetOrVillage`) with a present span satisfies
`0 ≤ start ≤ end ≤ length of the query`, so the coverage-mask update in
`getSimilarityWithOgcio` — over a mask of exactly the query's length — never
writes out of range: the whole similarity computation succeeds and returns a
mask of the query's length. -/
theorem matchDict_spans_in_bounds (inAddr : List Char) (d : OgcioDict)
    (ms : List FieldMatch) (h : matchDict inAddr d = some ms) :
    (∀ fm ∈ ms, ∀ a b : Nat, fm.matchSpan = some (a, b) →
       a ≤ b ∧ b ≤ inAddr.length) ∧
    ∃ s, getSimilarityWithOgcio inAddr d = some s ∧
         s.inAddrHasMatch.length = inAddr.length := by
  have hbounds := matchDict_bounds inAddr d ms h
  refine ⟨fun fm hfm => (hbounds fm hfm).1, ?_⟩
  obtain ⟨st, hst⟩ := foldlM_applyMatch_total ms
    (0, List.replicate inAddr.length false)
    (fun fm hfm => by
      have hb := hbounds fm hfm
      simpa [List.length_replicate] using hb)
  refine ⟨⟨st.1, inAddr, st.2, ms⟩, ?_, ?_⟩
  · rw [getSimilarityWithOgcio, h]
    simp only [Option.bind_eq_bind, Option.some_bind]
    rw [hst]
    rfl
  · have := (foldlM_applyMatch_props ms (0, List.replicate inAddr.length false)
      st hst).2.1
    simpa [List.length_replicate] using this

theorem matchDict_spans_in_bounds_witness :
    ∃ ms, matchDict "彌敦道596號".toList
        (.dcons "ChiStreet"
          (.vdict (.dcons "StreetName" (.vstr "彌敦道".toList)
            (.dcons "BuildingNoFrom" (.vstr "594".toList)
              (.dcons "BuildingNoTo" (.vstr "596".toList) .dnil))))
          (.dcons "Region" (.vstr "香港".toList) .dnil)) = some ms ∧
      ∃ s, getSimilarityWithOgcio "彌敦道596號".toList
          (.dcons "ChiStreet"
            (.vdict (.dcons "StreetName" (.vstr "彌敦道".toList)
              (.dcons "BuildingNoFrom" (.vstr "594".toList)
                (.dcons "BuildingNoTo" (.vstr "596".toList) .dnil))))
            (.dcons "Region" (.vstr "香港".toList) .dnil)) = some s ∧
        s.inAddrHasMatch.length = "彌敦道596號".toList.length := by
  have hms : (matchDict "彌敦道596號".toList
      (.dcons "ChiStreet"
        (.vdict (.dcons "StreetName" (.vstr "彌敦道".toList)
          (.dcons "BuildingNoFrom" (.vstr "594".toList)
            (.dcons "BuildingNoTo" (.vstr "596".toList) .dnil))))
        (.dcons "Region" (.vstr "香港".toList) .dnil))).isSome = true := by
    decide
  obtain ⟨ms, h⟩ := Option.isSome_iff_exists.mp hms
  exact ⟨ms, h, (matchDict_spans_in_bounds _ _ ms h).2⟩

/-! ### ParseAddress picks the earliest maximal-score candidate (C1) -/

theorem scoreCandidates_spec (inAddr : List Char) :
    ∀ (result : List Candidate) (scored : List (Candidate × Similarity)),
      scoreCandidates inAddr result = some scored →
      scored.map Prod.fst = result ∧
      ∀ p ∈ scored, getSimilarityWithOgcio inAddr p.1.chi = some p.2
  | [], scored => by
    intro h
    simp only [scoreCandidates, List.mapM_nil, Option.pure_def,
               Option.some.injEq] at h
    subst h
    exact ⟨rfl, fun p hp => absurd hp (List.not_mem_nil p)⟩
  | c :: rest, scored => by
    intro h
    simp only [scoreCandidates, List.mapM_cons] at h
    obtain ⟨p, hp, h2⟩ := Option.bind_eq_some.mp h
    obtain ⟨ps, hps, h3⟩ := Option.bind_eq_some.mp h2
    rw [Option.pure_def, Option.some.injEq] at h3
    subst h3
    obtain ⟨s, hsim, hpval⟩ := Option.map_eq_some'.mp hp
    subst hpval
    have hps' : scoreCandidates inAddr rest = some ps := hps
    obtain ⟨ihmap, ihsim⟩ := scoreCandidates_spec inAddr rest ps hps'
    refine ⟨by simp [ihmap], ?_⟩
    intro q hq
    rcases List.mem_cons.mp hq with rfl | hq
    · exact hsim
    · exact ihsim q hq

theorem insertByScoreDesc_head (x y : Candidate × Similarity)
    (ys : List (Candidate × Similarity)) :
    (insertByScoreDesc x (y :: ys)).head? =
      some (if y.2.score ≤ x.2.score then x else y) := by
  rw [insertByScoreDesc]
  by_cases hle : y.2.score ≤ x.2.score
  · rw [if_pos hle, if_pos hle]
    rfl
  · rw [if_neg hle, if_neg hle]
    rfl

/-- The head of the stable descending sort is the first element attaining
the maximal score. -/
theorem sortByScoreDesc_head :
    ∀ (l : List (Candidate × Similarity)), l ≠ [] →
      ∃ i : Fin l.length,
        (sortByScoreDesc l).head? = some (l.get i) ∧
        (∀ j : Fin l.length, (l.get j).2.score ≤ (l.get i).2.score) ∧
        (∀ j : Fin l.length, (j : Nat) < (i : Nat) →
           (l.get j).2.score < (l.get i).2.score)
  | [], hne => absurd rfl hne
  | x :: xs, _ => by
    cases hxs : xs with
    | nil =>
      refine ⟨⟨0, by simp⟩, rfl, ?_, ?_⟩
      · intro j
        cases j using Fin.cases with
        | zero => exact le_refl _
        | succ k => exact k.elim0
      · intro j hj
        cases j using Fin.cases with
        | zero => exact absurd hj (lt_irrefl 0)
        | succ k => exact k.elim0
    | cons y ys =>
      rw [← hxs]
      have hxsne : xs ≠ [] := by
        rw [hxs]
        exact List.cons_ne_nil y ys
      obtain ⟨i', h1, h2, h3⟩ := sortByScoreDesc_head xs hxsne
      obtain ⟨z, zs, hz⟩ : ∃ z zs, sortByScoreDesc xs = z :: zs := by
        cases hsx : sortByScoreDesc xs with
        | nil =>
          rw [hsx] at h1
          exact Option.noConfusion h1
        | cons z zs => exact ⟨z, zs, rfl⟩
      have hzval : z = xs.get i' := by
        rw [hz] at h1
        exact Option.some.inj h1
      have hsort : sortByScoreDesc (x :: xs) = insertByScoreDesc x (z :: zs) := by
        rw [sortByScoreDesc, hz]
      by_cases hle : (xs.get i').2.score ≤ x.2.score
      · refine ⟨⟨0, by simp⟩, ?_, ?_, ?_⟩
        · rw [hsort, insertByScoreDesc_head, hzval, if_pos hle]
          rfl
        · intro j
          cases j using Fin.cases with
          | zero => exact le_refl _
          | succ k =>
            calc ((x :: xs).get k.succ).2.score
                = (xs.get k).2.score := rfl
              _ ≤ (xs.get i').2.score := h2 k
              _ ≤ x.2.score := hle
        · intro j hj
          exact absurd hj (by simp)
      · have hlt : x.2.score < (xs.get i').2.score := lt_of_not_le hle
        refine ⟨i'.succ, ?_, ?_, ?_⟩
        · rw [hsort, insertByScoreDesc_head, hzval, if_neg hle]
          rfl
        · intro j
          cases j using Fin.cases with
          | zero => exact le_of_lt hlt
          | succ k => exact h2 k
        · intro j hj
          cases j using Fin.cases with
          | zero => exact hlt
          | succ k =>
            exact h3 k (by simpa using hj)

/-- C1 counterexample: a non-empty candidate list on which `ParseAddress`
returns no candidate at all: the candidate's `ChiStreet` value is a string,
so `matchChiStreetOrVillage` raises a `TypeError` (`inDict[None]`), and
`ParseAddress`'s own `try/except` turns the whole call into `None` instead
of returning a maximal-score candidate. -/
theorem ParseAddress_malformed_counterexample :
    ParseAddress
      [⟨0, .dcons "ChiStreet" (.vstr "彌敦道".toList) .dnil⟩]
      "彌敦道".toList = none := by
  rfl

/-- C1 (amended): on a non-empty candidate list whose similarity computations all
succeed, `ParseAddress` computes a `Similarity` for every candidate (in
input order), stably sorts by score descending, and returns the scored
candidate at the earliest position attaining the maximal score — so among
equal scores the candidate that came first (the lowest `rank` as produced by
`flattenOGCIO`) wins. -/
theorem ParseAddress_best (result : List Candidate) (inputAddress : List Char)
    (scored : List (Candidate × Similarity))
    (hne : result ≠ [])
    (hscored : scoreCandidates inputAddress result = some scored) :
    ∃ i : Fin scored.length,
      ParseAddress result inputAddress = some (scored.get i) ∧
      (∀ j : Fin scored.length, (scored.get j).2.score ≤ (scored.get i).2.score) ∧
      (∀ j : Fin scored.length, (j : Nat) < (i : Nat) →
         (scored.get j).2.score < (scored.get i).2.score) ∧
      scored.map Prod.fst = result ∧
      (∀ p ∈ scored, getSimilarityWithOgcio inputAddress p.1.chi = some p.2) := by
  obtain ⟨hmap, hsim⟩ := scoreCandidates_spec inputAddress result scored hscored
  have hscne : scored ≠ [] := by
    intro hnil
    apply hne
    rw [← hmap, hnil]
    rfl
  obtain ⟨i, h1, h2, h3⟩ := sortByScoreDesc_head scored hscne
  refine ⟨i, ?_, h2, h3, hmap, hsim⟩
  rw [ParseAddress, hscored]
  exact h1

theorem ParseAddress_best_witness :
    ∃ (scored : List (Candidate × Similarity)) (i : Fin scored.length),
      ParseAddress
        [⟨0, .dcons "Region" (.vstr "香港".toList) .dnil⟩,
         ⟨1, .dcons "Region" (.vstr "香港".toList) .dnil⟩] "香港".toList =
        some (scored.get i) ∧
      (scored.get i).1.rank = 0 := by
  have hsc : (scoreCandidates "香港".toList
      [⟨0, .dcons "Region" (.vstr "香港".toList) .dnil⟩,
       ⟨1, .dcons "Region" (.vstr "香港".toList) .dnil⟩]).isSome = true := by
    decide
  obtain ⟨scored, hscored⟩ := Option.isSome_iff_exists.mp hsc
  obtain ⟨i, h1, h2, h3, hmap, hsim⟩ := ParseAddress_best
    [⟨0, .dcons "Region" (.vstr "香港".toList) .dnil⟩,
     ⟨1, .dcons "Region" (.vstr "香港".toList) .dnil⟩]
    "香港".toList scored (by simp) hscored
  have hlen : scored.length = 2 := by
    have hl := congrArg List.length hmap
    simpa using hl
  have hj0 : (0 : Nat) < scored.length := by omega
  have hj1 : (1 : Nat) < scored.length := by omega
  have hget0 : (scored.get ⟨0, hj0⟩).1 =
      (⟨0, .dcons "Region" (.vstr "香港".toList) .dnil⟩ : Candidate) := by
    have h0 := congrArg (fun l : List Candidate => l[0]?) hmap
    simp only [List.getElem?_map, List.getElem?_eq_getElem hj0,
               List.getElem?_cons_zero, Option.map_some'] at h0
    exact Option.some.inj h0
  have hget1 : (scored.get ⟨1, hj1⟩).1 =
      (⟨1, .dcons "Region" (.vstr "香港".toList) .dnil⟩ : Candidate) := by
    have h0 := congrArg (fun l : List Candidate => l[1]?) hmap
    simp only [List.getElem?_map, List.getElem?_eq_getElem hj1,
               List.getElem?_cons_succ, List.getElem?_cons_zero,
               Option.map_some'] at h0
    exact Option.some.inj h0
  have hs0 := hsim (scored.get ⟨0, hj0⟩) (List.get_mem scored 0 hj0)
  have hs1 := hsim (scored.get ⟨1, hj1⟩) (List.get_mem scored 1 hj1)
  rw [hget0] at hs0
  rw [hget1] at hs1
  have hseq : (scored.get ⟨0, hj0⟩).2 = (scored.get ⟨1, hj1⟩).2 := by
    have := hs0.symm.trans hs1
    exact Option.some.inj this
  have hival : (i : Nat) = 0 := by
    by_contra hne0
    have hi1 : (i : Nat) = 1 := by
      have := i.isLt
      omega
    have hlt := h3 ⟨0, hj0⟩ (by rw [hi1]; exact Nat.zero_lt_one)
    have hieq : i = ⟨1, hj1⟩ := Fin.ext hi1
    rw [hieq] at hlt
    rw [hseq] at hlt
    exact lt_irrefl _ hlt
  have hieq : i = ⟨0, hj0⟩ := Fin.ext hival
  refine ⟨scored, i, h1, ?_⟩
  rw [hieq, hget0]

end HKAddr
